import Mathlib

/-!
Verification of `latest.go` (Go package `latest`): a coalescing
"latest value only" relay (`NewFeed`) and a multi-subscriber registry
(`Broadcast`).

The worker goroutine started by `NewFeed` is modelled as a small-step
state machine over its channel interactions. Channel operations are
linearised: each send, receive and close is one atomic event, in the
order the Go runtime commits them. Go panics (send on a closed channel,
close of a closed channel) are modelled by `Option`: `none` is a fatal
fault of the calling goroutine.
-/

variable {α : Type}

/-- State of the worker goroutine started by `NewFeed` (latest.go lines
15-33). `awaiting` is the outer loop blocked at `latest, ok := <-feed`
(line 18); `pending v` is the inner `select` (lines 23-29) racing a
newer receive on `feed` against delivering `v` on `notify`;
`terminated` is the goroutine having returned after the input channel
was closed. -/
inductive Worker (α : Type) where
| awaiting : Worker α
| pending (latest : α) : Worker α
| terminated : Worker α
deriving DecidableEq

/-- An interaction with the worker through its channels: the producer
sends a value on `feed`, the sink takes a value from `notify`, or the
producer closes `feed`. -/
inductive Ev (α : Type) where
| submit (v : α) : Ev α
| deliver : Ev α
| close : Ev α
deriving DecidableEq

/-- One step of the worker on one channel event, transcribed from the
goroutine body of `NewFeed` (latest.go lines 15-33). `some (w, out)` is
the next worker state together with the value handed to `notify` at
this step, if any. `none` means the event cannot take effect there: a
`deliver` while the worker is not offering `notify <- latest`, and any
operation on `feed` once the worker has terminated (its channel is
closed, so in Go a further send or close is a fatal panic in the
caller). -/
def Worker.step : Worker α → Ev α → Option (Worker α × Option α)
| .awaiting, .submit v => some (.pending v, none)
| .awaiting, .close => some (.terminated, none)
| .awaiting, .deliver => none
| .pending _, .submit v => some (.pending v, none)
| .pending v, .deliver => some (.awaiting, some v)
| .pending _, .close => some (.terminated, none)
| .terminated, _ => none

/-- Sending value `v` on the relay input channel. The worker takes the
value immediately in every live state; `none` models the Go panic from
sending on a closed channel. -/
def submitFeed (w : Worker α) (v : α) : Option (Worker α) :=
  (w.step (Ev.submit v)).map Prod.fst

/-- Closing the relay input channel, `close(feed)`. `none` models the Go
panic from closing an already-closed channel. -/
def closeChan (w : Worker α) : Option (Worker α) :=
  (w.step Ev.close).map Prod.fst

/-- The pending (submitted but not yet delivered) values the worker
holds: the single `latest` variable of the goroutine, when live in the
inner loop. -/
def Worker.pendingVals : Worker α → List α
| .pending v => [v]
| _ => []

/-- Run the worker over a linearised sequence of channel events,
collecting the values delivered on `notify` in order. An event that
cannot take effect at the current state leaves the state unchanged and
delivers nothing. -/
def runEv : Worker α → List (Ev α) → Worker α × List α
| w, [] => (w, [])
| w, e :: es =>
  match w.step e with
  | some (w', out) =>
    let r := runEv w' es
    (r.1, out.toList ++ r.2)
  | none => runEv w es

/-- Global state for the submission-order argument: the worker, the
number of values submitted so far (the k-th submission, counting from
0, is identified by its index k), and the submission indices delivered
to the sink so far, in delivery order. -/
structure Sys where
  w : Worker Nat
  subs : Nat
  delivered : List Nat
deriving DecidableEq

/-- A scheduler action against a single relay: the producer submits the
next value, the sink performs a receive, or the producer closes the
input. -/
inductive Act where
| submit : Act
| deliver : Act
| close : Act
deriving DecidableEq

/-- One scheduler action applied to the system. A submission carries the
next submission index. Actions that cannot take effect change
nothing. -/
def Sys.step (s : Sys) : Act → Sys
| .submit =>
  match s.w.step (Ev.submit s.subs) with
  | some (w', _) => ⟨w', s.subs + 1, s.delivered⟩
  | none => s
| .deliver =>
  match s.w.step Ev.deliver with
  | some (w', some v) => ⟨w', s.subs, s.delivered ++ [v]⟩
  | some (w', none) => ⟨w', s.subs, s.delivered⟩
  | none => s
| .close =>
  match s.w.step Ev.close with
  | some (w', _) => ⟨w', s.subs, s.delivered⟩
  | none => s

/-- Run a schedule of actions from a system state. -/
def Sys.run (s : Sys) : List Act → Sys
| [] => s
| a :: as => (s.step a).run as

/-- A fresh relay: worker awaiting its first value, nothing submitted,
nothing delivered. -/
def Sys.init : Sys := ⟨Worker.awaiting, 0, []⟩

/-- Invariant tying the worker state to the submission history: the
delivered indices are strictly increasing in delivery order, every
delivered index was submitted, and a pending index was submitted and is
newer than everything already delivered. -/
def SysInv (s : Sys) : Prop :=
  s.delivered.Pairwise (· < ·)
  ∧ (∀ d ∈ s.delivered, d < s.subs)
  ∧ (∀ v, s.w = Worker.pending v → v < s.subs ∧ ∀ d ∈ s.delivered, d < v)

theorem sysInv_step (s : Sys) (a : Act) (h : SysInv s) : SysInv (s.step a) := by
  obtain ⟨w, n, ds⟩ := s
  obtain ⟨hsort, hlt, hpend⟩ := h
  cases a with
  | submit =>
    cases w with
    | awaiting =>
      refine ⟨hsort, fun d hd => Nat.lt_succ_of_lt (hlt d hd), ?_⟩
      intro v hv
      obtain rfl : n = v := by
        simpa [Sys.step, Worker.step] using hv
      exact ⟨Nat.lt_succ_self n, hlt⟩
    | pending x =>
      refine ⟨hsort, fun d hd => Nat.lt_succ_of_lt (hlt d hd), ?_⟩
      intro v hv
      obtain rfl : n = v := by
        simpa [Sys.step, Worker.step] using hv
      exact ⟨Nat.lt_succ_self n, hlt⟩
    | terminated => exact ⟨hsort, hlt, hpend⟩
  | deliver =>
    cases w with
    | awaiting => exact ⟨hsort, hlt, hpend⟩
    | pending v =>
      obtain ⟨hvn, hvd⟩ := hpend v rfl
      refine ⟨?_, ?_, ?_⟩
      · exact List.pairwise_append.mpr
          ⟨hsort, List.pairwise_singleton _ _,
           fun a ha b hb => (List.mem_singleton.mp hb) ▸ hvd a ha⟩
      · intro d hd
        rcases List.mem_append.mp hd with h | h
        · exact hlt d h
        · exact (List.mem_singleton.mp h) ▸ hvn
      · intro u hu
        simp [Sys.step, Worker.step] at hu
    | terminated => exact ⟨hsort, hlt, hpend⟩
  | close =>
    cases w with
    | awaiting =>
      refine ⟨hsort, hlt, ?_⟩
      intro u hu
      simp [Sys.step, Worker.step] at hu
    | pending v =>
      refine ⟨hsort, hlt, ?_⟩
      intro u hu
      simp [Sys.step, Worker.step] at hu
    | terminated => exact ⟨hsort, hlt, hpend⟩

theorem sysInv_run (s : Sys) (as : List Act) (h : SysInv s) : SysInv (s.run as) := by
  induction as generalizing s with
  | nil => exact h
  | cons a as ih => exact ih _ (sysInv_step s a h)

theorem sysInv_init : SysInv Sys.init := by
  refine ⟨List.Pairwise.nil, ?_, ?_⟩
  · intro d hd
    simp [Sys.init] at hd
  · intro v hv
    simp [Sys.init] at hv

/-- C1: over every schedule of submissions, receives and closes against
a single relay, each value the sink receives was submitted to that
relay, and the received values are strictly increasing in submission
order: the sink never receives an earlier submission after a later one
(intermediate values may be skipped). -/
theorem relay_monotonic (as : List Act) :
    (Sys.init.run as).delivered.Pairwise (· < ·)
    ∧ ∀ d ∈ (Sys.init.run as).delivered, d < (Sys.init.run as).subs := by
  have h := sysInv_run Sys.init as sysInv_init
  exact ⟨h.1, h.2.1⟩

/-- C2: the worker holds at most one pending value at every instant, and
a submission in any live state replaces the pending slot with exactly
the new value, never queuing beside it. -/
theorem pending_single_slot (w : Worker α) (v : α) :
    (Worker.pendingVals w).length ≤ 1
    ∧ (w ≠ Worker.terminated →
        w.step (Ev.submit v) = some (Worker.pending v, none)
        ∧ (Worker.pending v).pendingVals = [v]) := by
  constructor
  · cases w <;> simp [Worker.pendingVals]
  · intro hw
    cases w with
    | awaiting => exact ⟨rfl, rfl⟩
    | pending x => exact ⟨rfl, rfl⟩
    | terminated => exact absurd rfl hw

theorem pending_single_slot_wit :
    (Worker.pendingVals (Worker.pending (3 : Nat))).length ≤ 1
    ∧ (Worker.pending (3 : Nat)).step (Ev.submit 5) = some (Worker.pending 5, none)
    ∧ (Worker.pending (5 : Nat)).pendingVals = [5] := by
  have h := pending_single_slot (Worker.pending (3 : Nat)) 5
  have h2 := h.2 (by decide)
  exact ⟨h.1, h2.1, h2.2⟩

/-- C3: the `ExampleNewFeed` scenario: on a fresh relay, submit 1, 2, 3
with no intervening receive, receive once (yields 3), submit 4, 5,
receive again (yields 5); the sink receives exactly 3 then 5. -/
theorem example_feed_scenario :
    runEv (Worker.awaiting : Worker Nat)
      [Ev.submit 1, Ev.submit 2, Ev.submit 3, Ev.deliver,
       Ev.submit 4, Ev.submit 5, Ev.deliver]
      = (Worker.awaiting, [3, 5]) := by
  rfl

theorem runEv_terminated (es : List (Ev α)) :
    runEv (Worker.terminated : Worker α) es = (Worker.terminated, []) := by
  induction es with
  | nil => rfl
  | cons e es ih => cases e <;> simpa [runEv, Worker.step] using ih

/-- C4: once the input is closed, the worker terminates at once in every
live state, the pending value (if any) is dropped, and nothing is ever
delivered to the sink at or after the close, whatever events follow. -/
theorem close_drops_pending (w : Worker α) (hw : w ≠ Worker.terminated)
    (rest : List (Ev α)) :
    runEv w (Ev.close :: rest) = (Worker.terminated, []) := by
  cases w with
  | awaiting => simp [runEv, Worker.step, runEv_terminated]
  | pending v => simp [runEv, Worker.step, runEv_terminated]
  | terminated => exact absurd rfl hw

theorem close_drops_pending_wit :
    runEv (Worker.pending (7 : Nat)) [Ev.close, Ev.deliver, Ev.submit 1]
      = (Worker.terminated, []) :=
  close_drops_pending (Worker.pending (7 : Nat)) (by decide) [Ev.deliver, Ev.submit 1]

/-- C5: in every live worker state — awaiting the first value or racing
delivery of a pending one — a submission is accepted immediately: the
step exists, hands nothing to the sink, and acceptance never waits for
the downstream consumer. -/
theorem submit_always_accepted (w : Worker α) (v : α) (hw : w ≠ Worker.terminated) :
    submitFeed w v = some (Worker.pending v)
    ∧ w.step (Ev.submit v) = some (Worker.pending v, none) := by
  cases w with
  | awaiting => exact ⟨rfl, rfl⟩
  | pending x => exact ⟨rfl, rfl⟩
  | terminated => exact absurd rfl hw

theorem submit_always_accepted_wit :
    submitFeed (Worker.pending (1 : Nat)) 2 = some (Worker.pending 2)
    ∧ (Worker.pending (1 : Nat)).step (Ev.submit 2) = some (Worker.pending 2, none) :=
  submit_always_accepted (Worker.pending (1 : Nat)) 2 (by decide)

/-- C9: on a relay whose input channel is already closed (worker
terminated), a further send and a further close both fault fatally —
the operation has no successor state, as opposed to succeeding as a
no-op. -/
theorem closed_input_faults (v : α) :
    submitFeed (Worker.terminated : Worker α) v = none
    ∧ closeChan (Worker.terminated : Worker α) = none := by
  exact ⟨rfl, rfl⟩

/-- Go map read `b.feeds[notify]`: on the nil map of a zero-value
`Broadcast` every lookup misses. Subscriber channel identities are
modelled as natural numbers. -/
def mapLookup (m : Option (List (Nat × Worker α))) (k : Nat) : Option (Worker α) :=
  match m with
  | none => none
  | some fs => fs.lookup k

/-- Construction of a relay (`NewFeed`, latest.go lines 12-36): the
returned input channel is backed by a fresh worker awaiting its first
value. -/
def NewFeed : Worker α := Worker.awaiting

/-- The `Broadcast` registry state (latest.go lines 42-45): the Go map
`feeds`, keyed by the subscriber's `notify` channel identity. `none` is
the nil map of a zero-value `Broadcast`; `some fs` an allocated map, as
an association list with distinct keys, each key mapped to the worker
behind its feed. The `sync.RWMutex` serialises the methods, so each
method is a plain state transformer here. -/
structure Broadcast (α : Type) where
  feeds : Option (List (Nat × Worker α))
deriving DecidableEq

/-- Method `Subscribe` (latest.go lines 59-75): a fresh feed is always
constructed first; if the sink is already subscribed the map is left
alone and the spare feed is closed. Returns the new registry state and,
in the duplicate case, the final state of the spare relay. `none` for
the whole result would be a panic; closing the freshly made spare
cannot panic. -/
def Broadcast.Subscribe (b : Broadcast α) (sink : Nat) :
    Option (Broadcast α × Option (Worker α)) :=
  let feed : Worker α := NewFeed
  match mapLookup b.feeds sink with
  | some _ => (closeChan feed).map (fun f => (b, some f))
  | none => some (⟨some ((b.feeds.getD []) ++ [(sink, feed)])⟩, none)

/-- Method `Unsubscribe` (latest.go lines 78-87): if the sink is
subscribed, its entry is deleted and its feed closed; otherwise nothing
happens. Returns the new registry state and the final state of the
removed relay, if any; `none` models a panic of `close(feed)`. -/
def Broadcast.Unsubscribe (b : Broadcast α) (sink : Nat) :
    Option (Broadcast α × Option (Worker α)) :=
  match mapLookup b.feeds sink with
  | some feed =>
    (closeChan feed).map
      (fun f => (⟨b.feeds.map (fun fs => fs.filter (fun p => p.1 != sink))⟩, some f))
  | none => some (b, none)

/-- Closing every feed of the map in order: the loop of
`UnsubscribeAll`; `none` models a panic on some close. -/
def closeAll : List (Nat × Worker α) → Option (List (Worker α))
| [] => some []
| p :: ps =>
  match closeChan p.2, closeAll ps with
  | some f, some fs => some (f :: fs)
  | _, _ => none

/-- Method `UnsubscribeAll` (latest.go lines 90-98): every entry is
deleted and its feed closed, leaving the map empty. Returns the new
state and the final states of the closed relays. -/
def Broadcast.UnsubscribeAll (b : Broadcast α) :
    Option (Broadcast α × List (Worker α)) :=
  match b.feeds with
  | none => some (b, [])
  | some fs => (closeAll fs).map (fun ws => (⟨some []⟩, ws))

/-- Method `SubscriptionCount` (latest.go lines 101-106): `len(b.feeds)`,
zero for the nil map. -/
def Broadcast.SubscriptionCount (b : Broadcast α) : Nat :=
  match b.feeds with
  | none => 0
  | some fs => fs.length

/-- Submitting `v` to every registered feed in order: the loop of
`Update`; `none` models a panic on a feed whose channel is closed. -/
def updateAll (v : α) : List (Nat × Worker α) → Option (List (Nat × Worker α))
| [] => some []
| p :: ps =>
  match submitFeed p.2 v, updateAll v ps with
  | some w, some ws => some ((p.1, w) :: ws)
  | _, _ => none

/-- Method `Update` (latest.go lines 48-55): forwards `v` to every
registered feed; over the nil map of a zero-value `Broadcast` the loop
body never runs. -/
def Broadcast.Update (b : Broadcast α) (v : α) : Option (Broadcast α) :=
  match b.feeds with
  | none => some b
  | some fs => (updateAll v fs).map (fun fs' => ⟨some fs'⟩)

/-- Every relay registered in the map is live (its input not closed):
the invariant the registry maintains. -/
def Broadcast.Alive (b : Broadcast α) : Prop :=
  ∀ p ∈ b.feeds.getD [], p.2 ≠ Worker.terminated

/-- The zero value of a Go `Broadcast`: no method called yet, nil map. -/
def zeroBroadcast : Broadcast α := ⟨none⟩

theorem lookup_append_right {β : Type} (fs : List (Nat × β)) (k : Nat) (w : β)
    (h : fs.lookup k = none) : (fs ++ [(k, w)]).lookup k = some w := by
  induction fs with
  | nil => simp [List.lookup]
  | cons p ps ih =>
    by_cases hk : k = p.1
    · simp [List.lookup, hk] at h
    · simp only [List.cons_append, List.lookup]
      simp only [List.lookup] at h
      have hb : (k == p.1) = false := by
        exact beq_false_of_ne hk
      rw [hb] at h ⊢
      exact ih h

theorem lookup_filter_out {β : Type} (fs : List (Nat × β)) (k : Nat) :
    (fs.filter (fun p => p.1 != k)).lookup k = none := by
  induction fs with
  | nil => rfl
  | cons p ps ih =>
    by_cases hk : p.1 = k
    · simp [List.filter, hk, ih]
    · have hb : (p.1 != k) = true := by
        simpa using hk
      have hb2 : (k == p.1) = false := beq_false_of_ne (fun he => hk he.symm)
      simp [List.filter, hb, List.lookup, hb2, ih]

theorem lookup_mem {β : Type} (fs : List (Nat × β)) (k : Nat) (w : β)
    (h : fs.lookup k = some w) : (k, w) ∈ fs := by
  induction fs with
  | nil => simp [List.lookup] at h
  | cons p ps ih =>
    by_cases hk : k = p.1
    · subst hk
      simp only [List.lookup, beq_self_eq_true] at h
      obtain rfl : p.2 = w := by simpa using h
      rw [Prod.mk.eta]
      exact List.mem_cons_self p ps
    · have hb : (k == p.1) = false := beq_false_of_ne hk
      simp only [List.lookup, hb] at h
      exact List.mem_cons_of_mem p (ih h)

theorem mapLookup_none_getD (m : Option (List (Nat × Worker α))) (k : Nat)
    (h : mapLookup m k = none) : (m.getD []).lookup k = none := by
  cases m with
  | none => rfl
  | some fs => exact h

theorem subscribe_of_found (b : Broadcast α) (sink : Nat)
    (h : (mapLookup b.feeds sink).isSome) :
    b.Subscribe sink = some (b, some Worker.terminated) := by
  unfold Broadcast.Subscribe
  obtain ⟨w, hw⟩ := Option.isSome_iff_exists.mp h
  rw [hw]
  rfl

theorem subscribe_of_missing (b : Broadcast α) (sink : Nat)
    (h : mapLookup b.feeds sink = none) :
    b.Subscribe sink
      = some (⟨some ((b.feeds.getD []) ++ [(sink, Worker.awaiting)])⟩, none) := by
  unfold Broadcast.Subscribe
  rw [h]
  rfl

/-- C6: subscribing an already-registered sink is a no-op — the registry
state and its subscription count are exactly those after a single
subscribe — and the spare relay built during the check ends terminated;
subscribing an unregistered sink inserts one fresh relay bound to
it. -/
theorem subscribe_idempotent (b : Broadcast α) (sink : Nat) :
    ((mapLookup b.feeds sink).isSome →
        b.Subscribe sink = some (b, some Worker.terminated))
    ∧ (mapLookup b.feeds sink = none →
        b.Subscribe sink
          = some (⟨some ((b.feeds.getD []) ++ [(sink, Worker.awaiting)])⟩, none))
    ∧ (∀ b₁ r₁ b₂ r₂, b.Subscribe sink = some (b₁, r₁) →
        b₁.Subscribe sink = some (b₂, r₂) →
        b₂ = b₁ ∧ b₂.SubscriptionCount = b₁.SubscriptionCount) := by
  refine ⟨subscribe_of_found b sink, subscribe_of_missing b sink, ?_⟩
  intro b₁ r₁ b₂ r₂ h₁ h₂
  cases hm : mapLookup b.feeds sink with
  | some w =>
    rw [subscribe_of_found b sink (by rw [hm]; rfl)] at h₁
    have hb₁ : b₁ = b := (congrArg Prod.fst (Option.some.inj h₁)).symm
    subst hb₁
    rw [subscribe_of_found b₁ sink (by rw [hm]; rfl)] at h₂
    have hb₂ : b₂ = b₁ := (congrArg Prod.fst (Option.some.inj h₂)).symm
    exact ⟨hb₂, by rw [hb₂]⟩
  | none =>
    rw [subscribe_of_missing b sink hm] at h₁
    have hb₁ : b₁ = ⟨some ((b.feeds.getD []) ++ [(sink, Worker.awaiting)])⟩ :=
      (congrArg Prod.fst (Option.some.inj h₁)).symm
    have hfound : (mapLookup b₁.feeds sink).isSome := by
      rw [hb₁]
      show (((b.feeds.getD []) ++ [(sink, Worker.awaiting)]).lookup sink).isSome
      rw [lookup_append_right _ _ _ (mapLookup_none_getD b.feeds sink hm)]
      rfl
    rw [subscribe_of_found b₁ sink hfound] at h₂
    have hb₂ : b₂ = b₁ := (congrArg Prod.fst (Option.some.inj h₂)).symm
    exact ⟨hb₂, by rw [hb₂]⟩

theorem subscribe_idempotent_wit :
    (Broadcast.Subscribe (Broadcast.mk (some [(0, Worker.awaiting)]) : Broadcast Nat) 0
       = some (Broadcast.mk (some [(0, Worker.awaiting)]), some Worker.terminated))
    ∧ (Broadcast.Subscribe (Broadcast.mk none : Broadcast Nat) 0
       = some (Broadcast.mk (some [(0, Worker.awaiting)]), none)) :=
  ⟨(subscribe_idempotent (Broadcast.mk (some [(0, Worker.awaiting)])) 0).1 (by decide),
   (subscribe_idempotent (Broadcast.mk none) 0).2.1 (by rfl)⟩

theorem closeChan_some (w f : Worker α) (h : closeChan w = some f) :
    f = Worker.terminated := by
  cases w with
  | awaiting => exact (Option.some.inj h).symm
  | pending v => exact (Option.some.inj h).symm
  | terminated => exact Option.noConfusion h

/-- C7: unsubscribing a registered sink deletes its entry from the map
and terminates its relay; afterwards a lookup of that sink misses and
every relay still registered is live, so the map holds no closed relay;
unsubscribing an unknown sink is a benign no-op that leaves the
registry unchanged. -/
theorem unsubscribe_spec (b : Broadcast α) (sink : Nat) (hA : b.Alive) :
    (mapLookup b.feeds sink = none → b.Unsubscribe sink = some (b, none))
    ∧ (∀ w, mapLookup b.feeds sink = some w →
        b.Unsubscribe sink
          = some (⟨b.feeds.map (fun fs => fs.filter (fun p => p.1 != sink))⟩,
                  some Worker.terminated)
        ∧ mapLookup (b.feeds.map (fun fs => fs.filter (fun p => p.1 != sink))) sink = none
        ∧ (Broadcast.mk (b.feeds.map (fun fs => fs.filter (fun p => p.1 != sink)))).Alive) := by
  constructor
  · intro h
    unfold Broadcast.Unsubscribe
    rw [h]
  · intro w hw
    cases hf : b.feeds with
    | none =>
      rw [hf] at hw
      exact Option.noConfusion hw
    | some fs =>
      have hlk : fs.lookup sink = some w := by rw [hf] at hw; exact hw
      have hmem : (sink, w) ∈ fs := lookup_mem fs sink w hlk
      have hwlive : w ≠ Worker.terminated := hA (sink, w) (by rw [hf]; exact hmem)
      have hclose : closeChan w = some Worker.terminated := by
        cases w with
        | awaiting => rfl
        | pending v => rfl
        | terminated => exact absurd rfl hwlive
      refine ⟨?_, ?_, ?_⟩
      · unfold Broadcast.Unsubscribe
        rw [hw]
        simp [hclose, hf]
      · exact lookup_filter_out fs sink
      · unfold Broadcast.Alive
        intro p hp
        exact hA p (by rw [hf]; exact List.mem_of_mem_filter hp)

theorem unsubscribe_spec_wit :
    Broadcast.Unsubscribe
        (Broadcast.mk (some [(0, Worker.awaiting), (1, Worker.pending (4 : Nat))])) 1
      = some (Broadcast.mk (some [(0, Worker.awaiting)]), some Worker.terminated)
    ∧ Broadcast.Unsubscribe
        (Broadcast.mk (some [(0, Worker.awaiting), (1, Worker.pending (4 : Nat))])) 2
      = some (Broadcast.mk (some [(0, Worker.awaiting), (1, Worker.pending (4 : Nat))]),
              none) := by
  have h₁ := unsubscribe_spec
    (Broadcast.mk (some [(0, Worker.awaiting), (1, Worker.pending (4 : Nat))])) 1
    (by unfold Broadcast.Alive; decide)
  have h₂ := unsubscribe_spec
    (Broadcast.mk (some [(0, Worker.awaiting), (1, Worker.pending (4 : Nat))])) 2
    (by unfold Broadcast.Alive; decide)
  exact ⟨(h₁.2 (Worker.pending 4) rfl).1, h₂.1 rfl⟩

theorem closeAll_spec (fs : List (Nat × Worker α)) (ws : List (Worker α))
    (h : closeAll fs = some ws) :
    ws.length = fs.length ∧ ∀ x ∈ ws, x = Worker.terminated := by
  induction fs generalizing ws with
  | nil =>
    obtain rfl : ws = [] := (Option.some.inj h).symm
    exact ⟨rfl, fun x hx => absurd hx (List.not_mem_nil x)⟩
  | cons p ps ih =>
    simp only [closeAll] at h
    cases hc : closeChan p.2 with
    | none =>
      rw [hc] at h
      exact Option.noConfusion h
    | some f =>
      rw [hc] at h
      cases hr : closeAll ps with
      | none =>
        rw [hr] at h
        exact Option.noConfusion h
      | some ws' =>
        rw [hr] at h
        obtain rfl : ws = f :: ws' := (Option.some.inj h).symm
        obtain rfl : f = Worker.terminated := closeChan_some p.2 f hc
        obtain ⟨hl, hall⟩ := ih ws' hr
        refine ⟨by simp [hl], ?_⟩
        intro x hx
        rcases List.mem_cons.mp hx with h1 | h1
        · exact h1
        · exact hall x h1

/-- C8: whenever `UnsubscribeAll` completes, the registry is left with no
subscriptions — `SubscriptionCount` returns 0 afterwards — and one
relay per former subscription was closed, every one of them ending
terminated. -/
theorem unsubscribeAll_empties (b b' : Broadcast α) (ws : List (Worker α))
    (h : b.UnsubscribeAll = some (b', ws)) :
    b'.SubscriptionCount = 0
    ∧ ws.length = b.SubscriptionCount
    ∧ ∀ x ∈ ws, x = Worker.terminated := by
  cases hf : b.feeds with
  | none =>
    simp only [Broadcast.UnsubscribeAll, hf] at h
    have hp := Option.some.inj h
    obtain rfl : b = b' := congrArg Prod.fst hp
    obtain rfl : ([] : List (Worker α)) = ws := congrArg Prod.snd hp
    refine ⟨?_, ?_, ?_⟩
    · simp [Broadcast.SubscriptionCount, hf]
    · simp [Broadcast.SubscriptionCount, hf]
    · intro x hx
      exact absurd hx (List.not_mem_nil x)
  | some fs =>
    simp only [Broadcast.UnsubscribeAll, hf] at h
    cases hca : closeAll fs with
    | none =>
      rw [hca] at h
      exact Option.noConfusion h
    | some ws0 =>
      rw [hca] at h
      have hp := Option.some.inj h
      obtain rfl : (Broadcast.mk (some []) : Broadcast α) = b' := congrArg Prod.fst hp
      obtain rfl : ws0 = ws := congrArg Prod.snd hp
      obtain ⟨hl, hall⟩ := closeAll_spec fs ws0 hca
      refine ⟨rfl, ?_, hall⟩
      simp [Broadcast.SubscriptionCount, hf, hl]

theorem unsubscribeAll_empties_wit :
    (Broadcast.mk (some ([] : List (Nat × Worker Nat)))).SubscriptionCount = 0
    ∧ ([Worker.terminated, Worker.terminated] : List (Worker Nat)).length
        = (Broadcast.mk (some [(0, Worker.awaiting),
            (1, Worker.pending (2 : Nat))])).SubscriptionCount := by
  have h := unsubscribeAll_empties
    (Broadcast.mk (some [(0, Worker.awaiting), (1, Worker.pending (2 : Nat))]))
    (Broadcast.mk (some []))
    [Worker.terminated, Worker.terminated]
    rfl
  exact ⟨h.1, h.2.1⟩

/-- C10: on the zero value of `Broadcast` (nil map, no method ever
called), `Update`, `Unsubscribe` and `UnsubscribeAll` complete without
fault and change nothing, `SubscriptionCount` is 0, and `Subscribe`
allocates the map on first use, inserting the one new relay. -/
theorem zero_broadcast_safe (v : α) (sink : Nat) :
    (zeroBroadcast : Broadcast α).Update v = some zeroBroadcast
    ∧ (zeroBroadcast : Broadcast α).Unsubscribe sink = some (zeroBroadcast, none)
    ∧ (zeroBroadcast : Broadcast α).UnsubscribeAll = some (zeroBroadcast, [])
    ∧ (zeroBroadcast : Broadcast α).SubscriptionCount = 0
    ∧ (zeroBroadcast : Broadcast α).Subscribe sink
        = some (⟨some [(sink, Worker.awaiting)]⟩, none) :=
  ⟨rfl, rfl, rfl, rfl, rfl⟩
